import Mathlib

/-!
Verification of the `memfs` in-memory filesystem (package `memfs`,
files `memfs.go` and `options.go`, encryption codec from the
package documentation).

The Go code is shallowly embedded as follows.

* Byte slices (`[]byte`) become `List Nat`; paths are represented in the
  already-split form `List String` (Go validates a slash-separated string
  with `fs.ValidPath` and then runs `strings.Split(path, "/")`; the root
  path "." is represented by the empty list `[]`).
* The node tree (`Dir.Children : map[string]childI` holding `*Dir` and
  `*File` values) becomes the nested inductive `Node`, with directory
  children as an association list `List (String × Node)` (Go map
  iteration order is unspecified; the model fixes the list order, which is
  one admissible order).  `ModTime` fields, mutexes and the `reader` /
  `closed` unexported fields of tree nodes are not part of the tree state;
  read handles are modelled by the separate `Handle` type, mirroring the
  fresh `&File{...}` copy that `FS.open` builds for every read handle.
* `int64` counters (`maxStorage`, `usedStorage`) become `Int`.
* The AES-GCM primitive (used as an opaque building block) is an abstract
  `Gcm` structure: `seal nonce pt` is `gcm.Seal`'s sealed output (without
  the prepended nonce), `opn nonce ct` is `gcm.Open`.  The randomly drawn
  nonce is threaded as an explicit argument of the operations that
  encrypt.  `Gcm.Correct` states the AEAD inversion contract.
* Go methods that mutate the receiver in place become functions returning
  the result together with the post-state (`Except Err α × FS`), so an
  error return also documents exactly which mutations happened before the
  error.
* Errors are modelled by the classification the Go code attaches via
  `%w` wrapping: `Err.notExist` corresponds to `errors.Is(err, fs.ErrNotExist)`,
  `Err.invalid` to `fs.ErrInvalid`, `Err.exist` to `fs.ErrExist`,
  `Err.closed` to `fs.ErrClosed`; `Err.limitExceeded` is the
  "storage limit exceeded" error, `Err.dirNotEmpty` the unwrapped
  "directory not empty" error and `Err.decryptionFailed` the
  "decryption failed" error.
* The open hook (`FS.openHook`) is `nil` in every claim scenario and is an
  external collaborator per the specification; `FS.Open` is modelled with
  hook absent (in which case Go's `Open` returns `rootFS.open(name)`
  unchanged).
-/

set_option autoImplicit false

namespace Memfs

/-- Byte sequences (`[]byte`). -/
abbrev Bytes := List Nat

/-- A path in split form: the list of slash-separated segments.  `[]`
represents the root path ".". -/
abbrev Path := List String

/-- Error classification (see the embedding notes above). -/
inductive Err where
  | invalid
  | notExist
  | exist
  | dirNotEmpty
  | closed
  | limitExceeded
  | decryptionFailed
  deriving DecidableEq, Repr

/-- A single segment produced by `strings.Split` on a string accepted by
`fs.ValidPath`: nonempty and not "." or ".." (a segment cannot contain the
separator by construction of the split form). -/
def validSeg (s : String) : Bool :=
  !(s = "") && !(s = ".") && !(s = "..")

/-- `fs.ValidPath` for a non-"." path, on the split form: at least one
segment and every segment valid. -/
def ValidPath (p : Path) : Bool :=
  !p.isEmpty && p.all validSeg

/-- The last segment of a path (`filePart` of `syspath.Split`). -/
def lastSeg (p : Path) : String := p.getLastD ""

/-- The abstract AES-GCM primitive (`cipher.AEAD`).  `sealB n pt` is the
sealed output of `gcm.Seal(nil, n, pt, nil)`; `opn n ct` is
`gcm.Open(nil, n, ct, nil)` with `none` for an authentication error. -/
structure Gcm where
  nonceSize : Nat
  sealB : Bytes → Bytes → Bytes
  opn : Bytes → Bytes → Option Bytes

/-- The AEAD contract of a real GCM instance: a positive nonce size, and
opening a sealed message with the sealing nonce recovers the plaintext. -/
def Gcm.Correct (g : Gcm) : Prop :=
  0 < g.nonceSize ∧ ∀ n pt, n.length = g.nonceSize → g.opn n (g.sealB n pt) = some pt

/-- The `encryptor` pointer held by `FS`: `nil` (the pointer itself is nil,
as in the `FS` literal built by `Sub`), a disabled encryptor
(`enable == false`, as built for an empty key), or an enabled one holding
the GCM primitive. -/
inductive EncState where
  | nil
  | disabled
  | enabled (g : Gcm)

/-- Whether `encryptor != nil && encryptor.enable`. -/
def encEnabled : EncState → Bool
  | .enabled _ => true
  | _ => false

/-- `encryptor.encrypt` (pass-through when the pointer is nil, because the
call is skipped, or when disabled or the plaintext is empty; otherwise the
random nonce is prepended to the sealed output, mirroring
`gcm.Seal(nonce, nonce, plaintext, nil)`). -/
def encBytes (e : EncState) (nonce pt : Bytes) : Bytes :=
  match e with
  | .enabled g => if pt = [] then pt else nonce ++ g.sealB nonce pt
  | _ => pt

/-- `encryptor.decrypt` (pass-through when nil/disabled or the input is
empty; otherwise the nonce prefix is split off and `gcm.Open` applied;
a short input or an authentication failure is the decryption error). -/
def decryptB (e : EncState) (ct : Bytes) : Except Err Bytes :=
  match e with
  | .enabled g =>
    if ct = [] then .ok ct
    else if ct.length < g.nonceSize then .error .decryptionFailed
    else
      match g.opn (ct.take g.nonceSize) (ct.drop g.nonceSize) with
      | some pt => .ok pt
      | none => .error .decryptionFailed
  | _ => .ok ct

/-- Side conditions for an encryption round trip: when encryption is
enabled, the GCM primitive satisfies its contract and the drawn nonce has
the nonce size.  Trivial when encryption is nil or disabled. -/
def NonceOK (e : EncState) (nonce : Bytes) : Prop :=
  match e with
  | .enabled g => g.Correct ∧ nonce.length = g.nonceSize
  | _ => True

/-- A tree node: `*File` (name, permission bits, stored content) or
`*Dir` (name, permission bits, children). -/
inductive Node where
  | file (name : String) (perm : Nat) (content : Bytes)
  | dir (name : String) (perm : Nat) (children : List (String × Node))

/-- The children map of a directory. -/
abbrev Children := List (String × Node)

/-- Map lookup (`m[k]`). -/
def lookupKey {α : Type} : List (String × α) → String → Option α
  | [], _ => none
  | (k, v) :: rest, s => if k = s then some v else lookupKey rest s

/-- Map update (`m[k] = v`): replaces the binding in place or appends. -/
def setKey {α : Type} : List (String × α) → String → α → List (String × α)
  | [], s, v => [(s, v)]
  | (k, v') :: rest, s, v => if k = s then (s, v) :: rest else (k, v') :: setKey rest s v

/-- Map deletion (`delete(m, k)`). -/
def eraseKey {α : Type} : List (String × α) → String → List (String × α)
  | [], _ => []
  | (k, v') :: rest, s => if k = s then rest else (k, v') :: eraseKey rest s

/-- `FS.get` on the children of a node, for a nonempty split path: walks
segments; a missing child or a `*File` met before the final segment fails
with the `fs.ErrNotExist` classification; the final node is returned.
(`getC cs []` plays the role of `get("")`, returning the current directory.) -/
def getC (cs : Children) : Path → Except Err Node
  | [] => .ok (.dir "" 0 cs)
  | [s] =>
    match lookupKey cs s with
    | none => .error .notExist
    | some n => .ok n
  | s :: r :: rest =>
    match lookupKey cs s with
    | none => .error .notExist
    | some (.file _ _ _) => .error .notExist
    | some (.dir _ _ cs') => getC cs' (r :: rest)

/-- `FS.getDir` on the children of a node: walks segments requiring a
directory at every step; a missing child or a file fails with the
`fs.ErrNotExist` classification; returns the final directory's children. -/
def getDirC (cs : Children) : Path → Except Err Children
  | [] => .ok cs
  | s :: rest =>
    match lookupKey cs s with
    | none => .error .notExist
    | some (.file _ _ _) => .error .notExist
    | some (.dir _ _ cs') => getDirC cs' rest

/-- Functional tree rebuild along a directory path: applies `f` to the
children of the directory reached by `parts` (the pointer-based Go code
mutates that directory in place; this is the value-level counterpart).
Unchanged when the path does not lead to a directory. -/
def updateDirAt (cs : Children) : Path → (Children → Children) → Children
  | [], f => f cs
  | s :: rest, f =>
    match lookupKey cs s with
    | some (.dir nm pm cs') => setKey cs s (.dir nm pm (updateDirAt cs' rest f))
    | _ => cs

/-- The stored content of the file at `p`, if `p` resolves to a file. -/
def contentAt (cs : Children) (p : Path) : Option Bytes :=
  match getC cs p with
  | .ok (.file _ _ c) => some c
  | _ => none

/-- `len(f.Content)` for the file at `p` (0 when no file is there). -/
def contentLenAt (cs : Children) (p : Path) : Nat :=
  match contentAt cs p with
  | some c => c.length
  | none => 0

/-- Sum of stored content lengths over a whole subtree (the quantity
`removeStorageUsed` subtracts from the counter, and the quantity the
counter is supposed to track). -/
def subtreeSize : Children → Nat
  | [] => 0
  | (_, .file _ _ c) :: rest => c.length + subtreeSize rest
  | (_, .dir _ _ cs) :: rest => subtreeSize cs + subtreeSize rest

/-- The filesystem state (`FS`): the root directory's children, the
storage limit, the storage counter, and the encryptor pointer.
(`openHook` is nil in every modelled configuration; root `Dir` has name ""
and permission 0, as in `New`.) -/
structure FS where
  root : Children
  maxStorage : Int
  usedStorage : Int
  enc : EncState

/-- `New(opts...)`: empty root; `maxStorage` is taken from the options
(0 when `WithMaxStorage` is absent — any non-positive value means
unlimited); the encryptor is disabled for an absent/empty key and enabled
(with the GCM keyed by the hashed key, abstracted by `g`) otherwise;
`usedStorage` starts at 0. -/
def FS.new (ms : Int) (g : Option Gcm) : FS :=
  { root := []
    maxStorage := ms
    usedStorage := 0
    enc := match g with
           | none => .disabled
           | some g => .enabled g }

/-- `FS.get`: "" (here `[]`, i.e. ".") resolves to the root directory;
otherwise the segments are walked by `getC`. -/
def FS.get (fs : FS) (p : Path) : Except Err Node :=
  if p = [] then .ok (.dir "" 0 fs.root) else getC fs.root p

/-- `FS.getDir`: walks all segments requiring directories. -/
def FS.getDir (fs : FS) (p : Path) : Except Err Children :=
  getDirC fs.root p

/-- `FS.create`: validates the path, resolves the parent directory of the
final segment, fails `fs.ErrExist` when an existing child with that name
is a directory, and otherwise stores a brand-new `&File{Name: filePart,
Perm: 0666}` under the final segment (replacing any existing file entry
with the fresh empty node).  Returns the new root; the created node is
the file now at `p`. -/
def FS.create (fs : FS) (p : Path) : Except Err Children :=
  if ¬ ValidPath p then .error .invalid
  else
    match getDirC fs.root p.dropLast with
    | .error e => .error e
    | .ok parent =>
      match lookupKey parent (lastSeg p) with
      | some (.dir _ _ _) => .error .exist
      | _ => .ok (updateDirAt fs.root p.dropLast
                   (fun cs => setKey cs (lastSeg p) (.file (lastSeg p) 0o666 [])))

/-- The assignments `f.Content = data; f.Perm = perm` performed through the
`*File` returned by `create` (the node at `p`). -/
def setContentPerm (root : Children) (p : Path) (data : Bytes) (perm : Nat) : Children :=
  updateDirAt root p.dropLast
    (fun cs =>
      match lookupKey cs (lastSeg p) with
      | some (.file nm _ _) => setKey cs (lastSeg p) (.file nm perm data)
      | _ => cs)

/-- The assignment `file.Content = data` alone (permission kept). -/
def setContentAt (root : Children) (p : Path) (data : Bytes) : Children :=
  updateDirAt root p.dropLast
    (fun cs =>
      match lookupKey cs (lastSeg p) with
      | some (.file nm pm _) => setKey cs (lastSeg p) (.file nm pm data)
      | _ => cs)

/-- `fw.file.Content = append(fw.file.Content, data...)`. -/
def appendContentAt (root : Children) (p : Path) (data : Bytes) : Children :=
  updateDirAt root p.dropLast
    (fun cs =>
      match lookupKey cs (lastSeg p) with
      | some (.file nm pm c) => setKey cs (lastSeg p) (.file nm pm (c ++ data))
      | _ => cs)

/-- `delete(dir.Children, filePart)` at the parent of `p`. -/
def eraseAt (root : Children) (p : Path) : Children :=
  updateDirAt root p.dropLast (fun cs => eraseKey cs (lastSeg p))

/-- `FS.WriteFile(path, data, perm)`: validate; encrypt (the call is made
only when the encryptor pointer is non-nil, but a disabled encryptor
passes data through, so `encBytes` covers both); pre-check the quota with
`usedStorage + len(encryptedData)` when a positive limit is configured;
`create` the (fresh, empty) file node; adjust the counter by
`-len(f.Content) + len(encryptedData)` where `f` is the node `create`
returned (which is always empty — the code never sees the replaced file's
old size); finally set content and permission through the returned node. -/
def FS.WriteFile (fs : FS) (p : Path) (data : Bytes) (perm : Nat) (nonce : Bytes) :
    Except Err Unit × FS :=
  if ¬ ValidPath p then (.error .invalid, fs)
  else
    let encData := encBytes fs.enc nonce data
    if 0 < fs.maxStorage ∧ fs.maxStorage < fs.usedStorage + (encData.length : Int) then
      (.error .limitExceeded, fs)
    else
      match fs.create p with
      | .error e => (.error e, fs)
      | .ok root₁ =>
        let used₁ :=
          if 0 < fs.maxStorage then
            fs.usedStorage - (contentLenAt root₁ p : Int) + (encData.length : Int)
          else fs.usedStorage
        (.ok (), { fs with root := setContentPerm root₁ p encData perm, usedStorage := used₁ })

/-- A read handle: the fresh `&File{Content: content, reader:
bytes.NewReader(content)}` that `FS.open` builds — an immutable decrypted
copy with a cursor and a closed flag.  Unrelated to the tree node it was
copied from. -/
structure Handle where
  content : Bytes
  pos : Nat
  closed : Bool
  deriving DecidableEq, Repr

/-- `io.ReadAll` on a handle: drains the reader from the current cursor to
EOF; fails `fs.ErrClosed` on a closed handle (`File.Read`). -/
def readAll (h : Handle) : Except Err Bytes :=
  if h.closed then .error .closed else .ok (h.content.drop h.pos)

/-- `File.Close`: fails `fs.ErrClosed` when already closed, otherwise
marks the handle closed. -/
def Handle.closeH (h : Handle) : Except Err Unit × Handle :=
  if h.closed then (.error .closed, h) else (.ok (), { h with closed := true })

/-- `fhDir`: a directory read handle; `names` are the child names of the
directory (one admissible map iteration order), `idx` the pagination
cursor. -/
structure FhDir where
  names : List String
  idx : Nat
  deriving DecidableEq, Repr

/-- `fhDir.ReadDir(n)`: returns the entry names, whether the error was
`io.EOF` (`true`) rather than nil, and the updated handle.  Transcribed
from the source: early return for an exhausted non-positive read; `err =
io.EOF` when `n > 0 && d.idx+n > len(names)` (with an inner early return
when `d.idx > len(names)`); `n = len(names)` when non-positive; then the
loop `for i := d.idx; i < n && i < len(names); i++` collects `names[i]`
and sets `d.idx = i+1`. -/
def FhDir.ReadDir (d : FhDir) (n : Int) : List String × Bool × FhDir :=
  let len := d.names.length
  if n ≤ 0 ∧ len ≤ d.idx then ([], false, d)
  else
    let eof := 0 < n ∧ (len : Int) < (d.idx : Int) + n
    if 0 < n ∧ (len : Int) < (d.idx : Int) + n ∧ (len : Int) < (d.idx : Int) then
      ([], true, d)
    else
      let m := if n ≤ 0 then len else n.toNat
      let stop := min m len
      ((d.names.drop d.idx).take (stop - d.idx), decide eof,
        { d with idx := max d.idx stop })

/-- Result of `Open` / `OpenFile`: a write handle (`*FileWriter`), a file
read handle, or a directory handle. -/
inductive OpenRes where
  | writer (path : Path) (closed : Bool)
  | rfile (h : Handle)
  | rdir (d : FhDir)

/-- `FS.Open(name)` with no open hook configured: validate ("." allowed),
resolve; for a file, decrypt (when the encryptor is non-nil and enabled)
and hand out a fresh read handle over the decrypted copy; for a
directory, a `fhDir` handle with cursor 0. -/
def FS.Open (fs : FS) (p : Path) : Except Err OpenRes :=
  if ¬ (p = [] ∨ ValidPath p = true) then .error .invalid
  else
    match fs.get p with
    | .error e => .error e
    | .ok (.file _ _ c) =>
      match (if encEnabled fs.enc then decryptB fs.enc c else .ok c) with
      | .error e => .error e
      | .ok content => .ok (.rfile ⟨content, 0, false⟩)
    | .ok (.dir _ _ cs) => .ok (.rdir ⟨cs.map Prod.fst, 0⟩)

/-- `FS.Sub(path)`: resolves the directory and wraps it in a zero-valued
`FS` literal — the returned view shares the subtree but has `maxStorage`
0, `usedStorage` 0 and a nil encryptor pointer. -/
def subFS (cs : Children) : FS :=
  { root := cs, maxStorage := 0, usedStorage := 0, enc := .nil }

/-- `FS.Sub` (no path validation in the source; `getDir` does the work). -/
def FS.Sub (fs : FS) (p : Path) : Except Err FS :=
  match getDirC fs.root p with
  | .error e => .error e
  | .ok cs => .ok (subFS cs)

/-- A `*FileWriter`: in the model it is identified by the path of the file
node it was opened on, plus its closed flag.  (The Go value holds a
pointer to the `*File` node; the path stands for that node in every run
in which the entry at the path is not replaced meanwhile, which covers
the claims' scenarios.) -/
structure FileWriter where
  path : Path
  closed : Bool
  deriving DecidableEq, Repr

/-- `FS.Create(path)`: `create` the (fresh, empty) node; subtract
`len(file.Content)` of that returned node from the counter (always 0 — the
replaced file's old size is never subtracted); set content empty; hand out
a write handle on the node. -/
def FS.Create (fs : FS) (p : Path) : Except Err FileWriter × FS :=
  match fs.create p with
  | .error e => (.error e, fs)
  | .ok root₁ =>
    let used₁ :=
      if 0 < fs.maxStorage then fs.usedStorage - (contentLenAt root₁ p : Int)
      else fs.usedStorage
    (.ok ⟨p, false⟩, { fs with root := setContentAt root₁ p [], usedStorage := used₁ })

/-- `FileWriter.Write(p)`: fails `fs.ErrClosed` on a closed writer; with a
positive limit, rejects when `usedStorage + len(p)` would exceed it
(leaving everything unchanged) and otherwise adds `len(p)` to the
counter; appends the plaintext bytes to the file node's buffer. -/
def FileWriter.Write (fw : FileWriter) (fs : FS) (data : Bytes) :
    Except Err Nat × (FileWriter × FS) :=
  if fw.closed then (.error .closed, (fw, fs))
  else if 0 < fs.maxStorage ∧ fs.maxStorage < fs.usedStorage + (data.length : Int) then
    (.error .limitExceeded, (fw, fs))
  else
    let used₁ :=
      if 0 < fs.maxStorage then fs.usedStorage + (data.length : Int) else fs.usedStorage
    (.ok data.length,
      (fw, { fs with root := appendContentAt fs.root fw.path data, usedStorage := used₁ }))

/-- `FileWriter.Close()`: fails `fs.ErrClosed` when already closed;
otherwise marks the writer closed and, when encryption is enabled,
encrypts the accumulated plaintext buffer once, adds the
ciphertext-minus-plaintext size difference to the counter (without any
limit check) and stores the ciphertext.  (The reader reset on the node is
not part of the tree state.) -/
def FileWriter.Close (fw : FileWriter) (fs : FS) (nonce : Bytes) :
    Except Err Unit × (FileWriter × FS) :=
  if fw.closed then (.error .closed, (fw, fs))
  else
    let fw₁ : FileWriter := { fw with closed := true }
    match fs.enc with
    | .enabled g =>
      let plaintext := (contentAt fs.root fw.path).getD []
      let encData := encBytes (.enabled g) nonce plaintext
      let used₁ :=
        if 0 < fs.maxStorage then
          fs.usedStorage + ((encData.length : Int) - (plaintext.length : Int))
        else fs.usedStorage
      (.ok (), (fw₁, { fs with root := setContentAt fs.root fw.path encData,
                               usedStorage := used₁ }))
    | _ => (.ok (), (fw₁, fs))

/-- The `os.OpenFile`-style flag bits the code inspects (`O_CREATE`,
`O_TRUNC`, `O_WRONLY`, `O_RDWR`, `O_APPEND`; `flag == O_RDONLY` is "no
bit set"; other bits are ignored by the code). -/
structure OFlag where
  create : Bool
  trunc : Bool
  wronly : Bool
  rdwr : Bool
  append : Bool
  deriving DecidableEq, Repr

/-- `flag&os.O_WRONLY != 0 || flag&os.O_RDWR != 0`. -/
def OFlag.writable (fl : OFlag) : Bool := fl.wronly || fl.rdwr

/-- `flag == os.O_RDONLY` (given that `create` was already ruled out). -/
def OFlag.isRdonly (fl : OFlag) : Bool :=
  !fl.create && !fl.trunc && !fl.wronly && !fl.rdwr && !fl.append

/-- `FS.OpenFile(path, flag, perm)`, transcribed branch by branch.
`O_CREATE`: a missing file is created (counter decreased by the fresh
node's size, i.e. 0) and a writer (or an empty read handle) returned; an
existing directory fails `fs.ErrInvalid`; an existing file is optionally
truncated (counter decreased by its size), then for write modes the stored
content is decrypted in place (no counter change) and a writer returned,
and for read mode a decrypted read handle is returned.  Without `O_CREATE`:
`flag == O_RDONLY` delegates to `Open`; otherwise the file is resolved, a
directory fails `fs.ErrInvalid`, optional truncation applies, write modes
get a writer and anything else delegates to `Open`.  (The path "." is not
modelled; `ValidPath [] = false`, whereas Go would go on to create a
file with empty name — a degenerate case no claim touches.) -/
def FS.OpenFile (fs : FS) (p : Path) (fl : OFlag) : Except Err OpenRes × FS :=
  if ¬ ValidPath p then (.error .invalid, fs)
  else if fl.create then
    match getC fs.root p with
    | .error e =>
      if e = .notExist then
        match fs.create p with
        | .error e' => (.error e', fs)
        | .ok root₁ =>
          let used₁ :=
            if 0 < fs.maxStorage then fs.usedStorage - (contentLenAt root₁ p : Int)
            else fs.usedStorage
          let fs₁ : FS := { fs with root := setContentAt root₁ p [], usedStorage := used₁ }
          if fl.writable then (.ok (.writer p false), fs₁)
          else (.ok (.rfile ⟨[], 0, false⟩), fs₁)
      else (.error e, fs)
    | .ok (.dir _ _ _) => (.error .invalid, fs)
    | .ok (.file _ _ c) =>
      let doTrunc := fl.trunc && fl.writable
      let fs₁ : FS :=
        if doTrunc then
          { fs with root := setContentAt fs.root p [],
                    usedStorage :=
                      if 0 < fs.maxStorage then fs.usedStorage - (c.length : Int)
                      else fs.usedStorage }
        else fs
      let c₁ : Bytes := if doTrunc then [] else c
      if fl.writable then
        if encEnabled fs.enc && !c₁.isEmpty then
          match decryptB fs.enc c₁ with
          | .error e => (.error e, fs₁)
          | .ok d => (.ok (.writer p false), { fs₁ with root := setContentAt fs₁.root p d })
        else (.ok (.writer p false), fs₁)
      else
        match (if encEnabled fs.enc && !c₁.isEmpty then decryptB fs.enc c₁ else .ok c₁) with
        | .error e => (.error e, fs₁)
        | .ok content => (.ok (.rfile ⟨content, 0, false⟩), fs₁)
  else if fl.isRdonly then
    (fs.Open p, fs)
  else
    match getC fs.root p with
    | .error e => (.error e, fs)
    | .ok (.dir _ _ _) => (.error .invalid, fs)
    | .ok (.file _ _ c) =>
      let doTrunc := fl.trunc && fl.writable
      let fs₁ : FS :=
        if doTrunc then
          { fs with root := setContentAt fs.root p [],
                    usedStorage :=
                      if 0 < fs.maxStorage then fs.usedStorage - (c.length : Int)
                      else fs.usedStorage }
        else fs
      if fl.writable then (.ok (.writer p false), fs₁)
      else (fs₁.Open p, fs₁)

/-- `FS.Remove(path)`: validate; refuse the root; resolve the parent;
a missing entry fails `fs.ErrNotExist`; a non-empty directory fails with
the (unwrapped) "directory not empty" error; a file's size is subtracted
from the counter; the entry is deleted. -/
def FS.Remove (fs : FS) (p : Path) : Except Err Unit × FS :=
  if ¬ (p = [] ∨ ValidPath p = true) then (.error .invalid, fs)
  else if p = [] then (.error .invalid, fs)
  else
    match getDirC fs.root p.dropLast with
    | .error e => (.error e, fs)
    | .ok parent =>
      match lookupKey parent (lastSeg p) with
      | none => (.error .notExist, fs)
      | some (.dir _ _ cs) =>
        if cs.isEmpty then (.ok (), { fs with root := eraseAt fs.root p })
        else (.error .dirNotEmpty, fs)
      | some (.file _ _ c) =>
        let used₁ :=
          if 0 < fs.maxStorage then fs.usedStorage - (c.length : Int) else fs.usedStorage
        (.ok (), { fs with root := eraseAt fs.root p, usedStorage := used₁ })

/-- `FS.RemoveAll(path)`: validate; "." clears the whole root (resetting
the counter to 0 when a positive limit is configured); a missing parent or
entry is a successful no-op; a file entry is deleted with its size
subtracted; a directory entry is deleted after `removeStorageUsed`
subtracted the subtree's total file size (when a positive limit is
configured). -/
def FS.RemoveAll (fs : FS) (p : Path) : Except Err Unit × FS :=
  if ¬ (p = [] ∨ ValidPath p = true) then (.error .invalid, fs)
  else if p = [] then
    (.ok (), { fs with root := [],
                       usedStorage := if 0 < fs.maxStorage then 0 else fs.usedStorage })
  else
    match getDirC fs.root p.dropLast with
    | .error _ => (.ok (), fs)
    | .ok parent =>
      match lookupKey parent (lastSeg p) with
      | none => (.ok (), fs)
      | some (.file _ _ c) =>
        let used₁ :=
          if 0 < fs.maxStorage then fs.usedStorage - (c.length : Int) else fs.usedStorage
        (.ok (), { fs with root := eraseAt fs.root p, usedStorage := used₁ })
      | some (.dir _ _ cs) =>
        let used₁ :=
          if 0 < fs.maxStorage then fs.usedStorage - (subtreeSize cs : Int)
          else fs.usedStorage
        (.ok (), { fs with root := eraseAt fs.root p, usedStorage := used₁ })

/-- `FS.UsedStorage()`: returns the counter. -/
def FS.UsedStorage (fs : FS) : Int := fs.usedStorage

/-! ### Snapshot codec (`SaveTo` / `LoadFrom`)

`SaveTo` gob-encodes the root `*Dir`; `LoadFrom` gob-decodes it, runs the
`initDir` mutex fix-up (no tree effect in the model) and wraps the tree in
a fresh `FS` with unlimited storage and a disabled encryptor.  The gob
byte encoding itself is an opaque building block; the model keeps the
structural projection it transports: for every node its kind, name,
permission bits, children and — for files — exactly the stored bytes.
`SnapNode` is that serialized form. -/

/-- A serialized node: what the gob encoding persists of a `*File` or
`*Dir` (`ModTime` is persisted too but never observed by any claim and is
not part of the tree model). -/
inductive SnapNode where
  | file (name : String) (perm : Nat) (content : Bytes)
  | dir (name : String) (perm : Nat) (children : List (String × SnapNode))

/-- Structural encoding of a children map (the serialization direction). -/
def encodeC : Children → List (String × SnapNode)
  | [] => []
  | (k, .file nm pm c) :: rest => (k, .file nm pm c) :: encodeC rest
  | (k, .dir nm pm cs) :: rest => (k, .dir nm pm (encodeC cs)) :: encodeC rest

/-- Structural decoding of a children map (the deserialization direction). -/
def decodeC : List (String × SnapNode) → Children
  | [] => []
  | (k, .file nm pm c) :: rest => (k, .file nm pm c) :: decodeC rest
  | (k, .dir nm pm cs) :: rest => (k, .dir nm pm (decodeC cs)) :: decodeC rest

/-- `FS.SaveTo`: encodes the root directory. -/
def FS.SaveTo (fs : FS) : List (String × SnapNode) := encodeC fs.root

/-- `LoadFrom`: decodes the tree and wraps it in a fresh `FS` with
`maxStorage = -1` (unlimited), a zero counter and a disabled encryptor
(keys are never persisted). -/
def LoadFrom (s : List (String × SnapNode)) : FS :=
  { root := decodeC s, maxStorage := -1, usedStorage := 0, enc := .disabled }

/-! ### Operation traces -/

/-- One filesystem operation of the quota-relevant API, with all its
inputs (writers are passed in as values, covering every writer a run
could hold). -/
inductive Op where
  | write (p : Path) (data : Bytes) (perm : Nat) (nonce : Bytes)
  | createOp (p : Path)
  | openFileOp (p : Path) (fl : OFlag)
  | fwWriteOp (fw : FileWriter) (data : Bytes)
  | fwCloseOp (fw : FileWriter) (nonce : Bytes)
  | removeOp (p : Path)
  | removeAllOp (p : Path)

/-- The state after one operation (results discarded). -/
def applyOp (fs : FS) : Op → FS
  | .write p data perm nonce => (fs.WriteFile p data perm nonce).2
  | .createOp p => (fs.Create p).2
  | .openFileOp p fl => (fs.OpenFile p fl).2
  | .fwWriteOp fw data => (fw.Write fs data).2.2
  | .fwCloseOp fw nonce => (fw.Close fs nonce).2.2
  | .removeOp p => (fs.Remove p).2
  | .removeAllOp p => (fs.RemoveAll p).2

/-- The state after a sequence of operations. -/
def runOps (fs : FS) : List Op → FS
  | [] => fs
  | op :: rest => runOps (applyOp fs op) rest

/-! ### Node identity model for `create`

`create` acts on one parent directory: `dir.Children[filePart]` is
inspected and then overwritten with a freshly allocated `&File{...}`.
To talk about node identity (pointer identity of the `*File` values — the
part of claim C7 the value-level tree cannot express), the parent
directory is modelled with explicit allocation: every child entry carries
the id of the heap node it points to, and `nextId` is the next fresh
allocation. -/

/-- A child entry of the identity-level parent directory: a file node id
with its content, or a directory node id. -/
inductive Entry where
  | fileE (id : Nat) (content : Bytes)
  | dirE (id : Nat)
  deriving DecidableEq, Repr

/-- A parent directory with explicit node identities. -/
structure IdDir where
  children : List (String × Entry)
  nextId : Nat
  deriving DecidableEq, Repr

/-- The id of the node an entry points to. -/
def Entry.nodeId : Entry → Nat
  | .fileE id _ => id
  | .dirE id => id

/-- Heap well-formedness: every id already held by the directory is below
the next fresh id. -/
def WfIdDir (d : IdDir) : Prop :=
  ∀ kv ∈ d.children, (Prod.snd kv).nodeId < d.nextId

/-- The final step of `create` (source lines 210–226) at the identity
level: an existing directory child fails `fs.ErrExist`; otherwise a
brand-new `&File{Name: filePart, Perm: 0666}` is allocated (`nextId`) and
stored under the name, replacing any existing file entry.  Returns the id
of the node now at the name together with the updated directory. -/
def IdDir.createE (d : IdDir) (name : String) : Except Err (Nat × IdDir) :=
  match lookupKey d.children name with
  | some (.dirE _) => .error .exist
  | _ => .ok (d.nextId, ⟨setKey d.children name (.fileE d.nextId []), d.nextId + 1⟩)

/-- Modelled from the spec (the claim's reading, for comparison with
`IdDir.createE`): "replacing an existing File resets its content to empty
while preserving node identity" — the existing file node keeps its id and
its content becomes empty; the directory and missing cases are as in the
code. -/
def IdDir.createESpec (d : IdDir) (name : String) : Except Err (Nat × IdDir) :=
  match lookupKey d.children name with
  | some (.dirE _) => .error .exist
  | some (.fileE id _) => .ok (id, ⟨setKey d.children name (.fileE id []), d.nextId⟩)
  | none => .ok (d.nextId, ⟨setKey d.children name (.fileE d.nextId []), d.nextId + 1⟩)

/-! ### A concrete AEAD instance for witnesses

A toy GCM satisfying `Gcm.Correct`, used only to instantiate theorems at
concrete inputs: 2-byte nonce, sealing appends a 1-byte tag (so, like real
AES-GCM, the ciphertext is strictly longer than the plaintext). -/

/-- Toy AEAD: `sealB n pt = pt ++ [0]`, `opn` strips the tag. -/
def toyGcm : Gcm :=
  { nonceSize := 2
    sealB := fun _ pt => pt ++ [0]
    opn := fun _ ct => match ct with | [] => none | _ :: _ => some ct.dropLast }

theorem toyGcm_correct : toyGcm.Correct := by
  refine ⟨by decide, fun n pt _ => ?_⟩
  cases pt with
  | nil => simp [toyGcm]
  | cons a t =>
    simp only [toyGcm]
    rw [show (a :: t) ++ [0] = (a :: t) ++ [0] from rfl]
    cases h : (a :: t) ++ [0] with
    | nil => simp at h
    | cons b u => simp only []; rw [← h, List.dropLast_concat]

theorem toyGcm_nonceOK : NonceOK (EncState.enabled toyGcm) [5, 6] :=
  ⟨toyGcm_correct, rfl⟩

/-! ### Map and traversal lemmas -/

theorem lookupKey_setKey_self {α : Type} (l : List (String × α)) (k : String) (v : α) :
    lookupKey (setKey l k v) k = some v := by
  induction l with
  | nil => simp [setKey, lookupKey]
  | cons kv rest ih =>
    obtain ⟨k', v'⟩ := kv
    by_cases h : k' = k
    · simp [setKey, h, lookupKey]
    · simp [setKey, h, lookupKey, ih]

theorem lookupKey_setKey_ne {α : Type} (l : List (String × α)) (k s : String) (v : α)
    (h : s ≠ k) : lookupKey (setKey l k v) s = lookupKey l s := by
  induction l with
  | nil =>
    have hks : ¬ (k = s) := fun hh => h hh.symm
    simp [setKey, lookupKey, hks]
  | cons kv rest ih =>
    obtain ⟨k', v'⟩ := kv
    by_cases hk : k' = k
    · subst hk
      have hks : ¬ (k' = s) := fun hh => h hh.symm
      simp [setKey, lookupKey, hks]
    · simp [setKey, hk, lookupKey, ih]

/-- After rebuilding the tree at directory path `init` with `f`, resolving
`init` again finds `f` applied to the old directory. -/
theorem getDirC_updateDirAt (init : Path) :
    ∀ (cs par : Children) (f : Children → Children),
      getDirC cs init = .ok par →
      getDirC (updateDirAt cs init f) init = .ok (f par) := by
  induction init with
  | nil =>
    intro cs par f h
    simp [getDirC] at h
    subst h
    simp [updateDirAt, getDirC]
  | cons s rest ih =>
    intro cs par f h
    cases hl : lookupKey cs s with
    | none => simp [getDirC, hl] at h
    | some n =>
      cases n with
      | file nm pm c => simp [getDirC, hl] at h
      | dir nm pm cs' =>
        simp only [getDirC, hl] at h
        simp only [updateDirAt, hl, getDirC, lookupKey_setKey_self]
        exact ih cs' par f h

/-- Resolving `init ++ rest` first walks `init` (when `init` resolves to a
directory and `rest` is nonempty). -/
theorem getC_append (init : Path) :
    ∀ (cs par : Children) (rest : Path), rest ≠ [] →
      getDirC cs init = .ok par →
      getC cs (init ++ rest) = getC par rest := by
  induction init with
  | nil =>
    intro cs par rest _ h
    simp [getDirC] at h
    subst h
    simp
  | cons s t ih =>
    intro cs par rest hne h
    cases hl : lookupKey cs s with
    | none => simp [getDirC, hl] at h
    | some n =>
      cases n with
      | file nm pm c => simp [getDirC, hl] at h
      | dir nm pm cs' =>
        simp only [getDirC, hl] at h
        obtain ⟨r, rs, hcons⟩ := List.exists_cons_of_ne_nil
          (show t ++ rest ≠ [] by simp [hne])
        have : getC cs ((s :: t) ++ rest) = getC cs' (t ++ rest) := by
          simp only [List.cons_append]
          rw [hcons]
          simp [getC, hl]
        rw [this, ih cs' par rest hne h]

/-- Splitting a nonempty path into its parent part and final segment. -/
theorem dropLast_append_lastSeg : ∀ (p : Path), p ≠ [] → p.dropLast ++ [lastSeg p] = p
  | [_], _ => rfl
  | a :: b :: t, _ => by
    have ih := dropLast_append_lastSeg (b :: t) (by simp)
    have h1 : (a :: b :: t).dropLast = a :: (b :: t).dropLast := rfl
    have h2 : lastSeg (a :: b :: t) = lastSeg (b :: t) := rfl
    rw [h1, h2, List.cons_append, ih]

theorem validPath_ne_nil {p : Path} (h : ValidPath p = true) : p ≠ [] := by
  intro hp
  subst hp
  simp [ValidPath] at h

/-- Encryption round trip: decrypting what `encrypt` stored recovers the
plaintext, for a correct AEAD and a nonce of the right size (trivially
when encryption is nil or disabled). -/
theorem decryptB_encBytes (e : EncState) (nonce data : Bytes) (h : NonceOK e nonce) :
    decryptB e (encBytes e nonce data) = .ok data := by
  cases e with
  | nil => rfl
  | disabled => rfl
  | enabled g =>
    obtain ⟨⟨hpos, hrt⟩, hlen⟩ := h
    by_cases hd : data = []
    · subst hd
      simp [encBytes, decryptB]
    · simp only [encBytes, if_neg hd, decryptB]
      have hlen2 : (nonce ++ g.sealB nonce data).length
          = g.nonceSize + (g.sealB nonce data).length := by
        simp [hlen]
      have hne : nonce ++ g.sealB nonce data ≠ [] := by
        intro hc
        have := congrArg List.length hc
        simp only [List.length_nil] at this
        omega
      rw [if_neg hne]
      have hnotlt : ¬ (nonce ++ g.sealB nonce data).length < g.nonceSize := by omega
      rw [if_neg hnotlt]
      have htake : (nonce ++ g.sealB nonce data).take g.nonceSize = nonce := by
        rw [← hlen]
        exact List.take_left _ _
      have hdrop : (nonce ++ g.sealB nonce data).drop g.nonceSize = g.sealB nonce data := by
        rw [← hlen]
        exact List.drop_left _ _
      rw [htake, hdrop, hrt nonce data hlen]

/-- Extending a path that resolves to a file makes `get` fail with the
`fs.ErrNotExist` classification (a file met where a directory is
expected). -/
theorem getC_file_extend (pre : Path) :
    ∀ (cs : Children) (nm : String) (pm : Nat) (c : Bytes) (more : Path), more ≠ [] →
      getC cs pre = .ok (.file nm pm c) →
      getC cs (pre ++ more) = .error .notExist := by
  induction pre with
  | nil => intro cs nm pm c more hm h; simp [getC] at h
  | cons s t ih =>
    intro cs nm pm c more hm h
    cases t with
    | nil =>
      cases hl : lookupKey cs s with
      | none => simp [getC, hl] at h
      | some n =>
        simp only [getC, hl] at h
        obtain ⟨m, ms, hmore⟩ := List.exists_cons_of_ne_nil hm
        subst hmore
        cases h
        simp [getC, hl]
    | cons r t' =>
      cases hl : lookupKey cs s with
      | none => simp [getC, hl] at h
      | some n =>
        cases n with
        | file nm' pm' c' => simp [getC, hl] at h
        | dir nm' pm' cs' =>
          simp only [getC, hl] at h
          have : getC cs ((s :: r :: t') ++ more) = getC cs' ((r :: t') ++ more) := by
            simp [getC, hl]
          rw [this]
          exact ih cs' nm pm c more hm h

/-- Same for `getDir`: any path passing through (or ending at) a file node
fails with the `fs.ErrNotExist` classification. -/
theorem getDirC_file_extend (pre : Path) :
    ∀ (cs : Children) (nm : String) (pm : Nat) (c : Bytes) (rest : Path),
      getC cs pre = .ok (.file nm pm c) →
      getDirC cs (pre ++ rest) = .error .notExist := by
  induction pre with
  | nil => intro cs nm pm c rest h; simp [getC] at h
  | cons s t ih =>
    intro cs nm pm c rest h
    cases t with
    | nil =>
      cases hl : lookupKey cs s with
      | none => simp [getC, hl] at h
      | some n =>
        simp only [getC, hl] at h
        cases h
        simp [getDirC, hl]
    | cons r t' =>
      cases hl : lookupKey cs s with
      | none => simp [getC, hl] at h
      | some n =>
        cases n with
        | file nm' pm' c' => simp [getC, hl] at h
        | dir nm' pm' cs' =>
          simp only [getC, hl] at h
          have : getDirC cs ((s :: r :: t') ++ rest) = getDirC cs' ((r :: t') ++ rest) := by
            simp [getDirC, hl]
          rw [this]
          exact ih cs' nm pm c rest h

/-- What a successful `WriteFile` guarantees: the path was valid and in the
new state the path resolves to a file holding the (possibly encrypted)
payload with the requested permission; configuration is unchanged. -/
theorem WriteFile_ok (fs : FS) (p : Path) (data : Bytes) (perm : Nat) (nonce : Bytes)
    (h : (fs.WriteFile p data perm nonce).1 = .ok ()) :
    getC (fs.WriteFile p data perm nonce).2.root p
      = .ok (.file (lastSeg p) perm (encBytes fs.enc nonce data)) ∧
    (fs.WriteFile p data perm nonce).2.enc = fs.enc ∧
    (fs.WriteFile p data perm nonce).2.maxStorage = fs.maxStorage ∧
    ValidPath p = true := by
  by_cases hval : ValidPath p
  · have hpne : p ≠ [] := validPath_ne_nil hval
    set encData := encBytes fs.enc nonce data with hdefenc
    by_cases hq : 0 < fs.maxStorage ∧ fs.maxStorage < fs.usedStorage + (encData.length : Int)
    · simp [FS.WriteFile, hval, hq, ← hdefenc] at h
    · cases hc : fs.create p with
      | error e => simp [FS.WriteFile, hval, hq, ← hdefenc, hc] at h
      | ok root₁ =>
        -- unpack what `create` did
        have hcreate := hc
        simp only [FS.create, hval] at hcreate
        cases hgd : getDirC fs.root p.dropLast with
        | error e => rw [hgd] at hcreate; simp at hcreate
        | ok parent =>
          rw [hgd] at hcreate
          simp only [not_true, if_false, Bool.not_eq_true] at hcreate
          have hroot₁ :
              root₁ = updateDirAt fs.root p.dropLast
                (fun cs => setKey cs (lastSeg p) (.file (lastSeg p) 0o666 [])) := by
            cases hlk : lookupKey parent (lastSeg p) with
            | none => rw [hlk] at hcreate; simp at hcreate; exact hcreate.symm
            | some n =>
              cases n with
              | file nm pm c =>
                rw [hlk] at hcreate; simp at hcreate; exact hcreate.symm
              | dir nm pm cs => rw [hlk] at hcreate; simp at hcreate
          -- resolve the new tree
          have hgd₁ : getDirC root₁ p.dropLast
              = .ok (setKey parent (lastSeg p) (.file (lastSeg p) 0o666 [])) := by
            rw [hroot₁]
            exact getDirC_updateDirAt _ _ _ _ hgd
          have hgd₂ : getDirC (setContentPerm root₁ p encData perm) p.dropLast
              = .ok (setKey (setKey parent (lastSeg p) (.file (lastSeg p) 0o666 []))
                      (lastSeg p) (.file (lastSeg p) perm encData)) := by
            have := getDirC_updateDirAt p.dropLast root₁ _
              (fun cs =>
                match lookupKey cs (lastSeg p) with
                | some (.file nm _ _) => setKey cs (lastSeg p) (.file nm perm encData)
                | _ => cs) hgd₁
            simpa [setContentPerm, lookupKey_setKey_self] using this
          have hget : getC (setContentPerm root₁ p encData perm) p
              = .ok (.file (lastSeg p) perm encData) := by
            have h3 := getC_append p.dropLast (setContentPerm root₁ p encData perm) _
              [lastSeg p] (by simp) hgd₂
            rw [dropLast_append_lastSeg p hpne] at h3
            rw [h3]
            simp [getC, lookupKey_setKey_self]
          refine ⟨?_, ?_, ?_, hval⟩
          · simpa [FS.WriteFile, hval, hq, ← hdefenc, hc] using hget
          · simp [FS.WriteFile, hval, hq, ← hdefenc, hc]
          · simp [FS.WriteFile, hval, hq, ← hdefenc, hc]
  · simp [FS.WriteFile, hval] at h

/-- The structural decoding inverts the structural encoding. -/
theorem decodeC_encodeC : ∀ cs : Children, decodeC (encodeC cs) = cs
  | [] => by simp [encodeC, decodeC]
  | (k, .file nm pm c) :: rest => by
    simp [encodeC, decodeC, decodeC_encodeC rest]
  | (k, .dir nm pm cs) :: rest => by
    simp [encodeC, decodeC, decodeC_encodeC cs, decodeC_encodeC rest]

/-- The decrypt step `FS.Open` performs on stored content, applied to what
`WriteFile` stored, recovers the written plaintext. -/
theorem open_decrypt_of_written (e : EncState) (nonce data : Bytes) (henc : NonceOK e nonce) :
    (if encEnabled e then decryptB e (encBytes e nonce data)
     else .ok (encBytes e nonce data)) = .ok data := by
  cases e with
  | nil => simp [encEnabled, encBytes]
  | disabled => simp [encEnabled, encBytes]
  | enabled g => simp [encEnabled, decryptB_encBytes _ _ _ henc]

/-! ### Claims -/

/-- C1: For every byte sequence and every valid relative file path, with
encryption either enabled or disabled (`NonceOK` supplies the AEAD
contract and nonce size when enabled, and is trivial otherwise), a
successful `WriteFile` of those bytes followed by `Open` on the same path
and reading the returned handle to EOF yields exactly the original
bytes. -/
theorem C1_write_read_roundtrip (fs : FS) (p : Path) (data : Bytes) (perm : Nat)
    (nonce : Bytes) (henc : NonceOK fs.enc nonce)
    (hok : (fs.WriteFile p data perm nonce).1 = .ok ()) :
    ∃ h : Handle,
      (fs.WriteFile p data perm nonce).2.Open p = .ok (.rfile h) ∧
      readAll h = .ok data := by
  obtain ⟨hget, hencEq, _, hval⟩ := WriteFile_ok fs p data perm nonce hok
  refine ⟨⟨data, 0, false⟩, ?_, by simp [readAll]⟩
  unfold FS.Open FS.get
  rw [if_neg (by simp [hval]), if_neg (validPath_ne_nil hval), hget, hencEq]
  simp only [open_decrypt_of_written fs.enc nonce data henc]

/-- C1 witness: a concrete encrypted round trip through the theorem. -/
theorem C1_witness :
    NonceOK (FS.new 0 (some toyGcm)).enc [5, 6] ∧
    ((FS.new 0 (some toyGcm)).WriteFile ["a"] [7, 8] 438 [5, 6]).1 = .ok () ∧
    (∃ h : Handle,
      ((FS.new 0 (some toyGcm)).WriteFile ["a"] [7, 8] 438 [5, 6]).2.Open ["a"]
        = .ok (.rfile h) ∧
      readAll h = .ok [7, 8]) :=
  ⟨toyGcm_nonceOK, rfl,
    C1_write_read_roundtrip (FS.new 0 (some toyGcm)) ["a"] [7, 8] 438 [5, 6]
      toyGcm_nonceOK rfl⟩

/-- C4: Serializing a filesystem tree with `SaveTo` and deserializing the
result with `LoadFrom` produces a filesystem whose tree is the original
one — hence an identical set of resolvable paths and byte-for-byte
identical stored content (ciphertext is preserved exactly: the loaded
instance has a disabled encryptor, so nothing is re-encrypted, and its
quota is the unlimited sentinel). -/
theorem C4_save_load_roundtrip (fs : FS) :
    (LoadFrom fs.SaveTo).root = fs.root ∧
    (∀ p : Path, getC (LoadFrom fs.SaveTo).root p = getC fs.root p) ∧
    (∀ p : Path, contentAt (LoadFrom fs.SaveTo).root p = contentAt fs.root p) ∧
    (LoadFrom fs.SaveTo).enc = .disabled ∧
    (LoadFrom fs.SaveTo).maxStorage = -1 := by
  have hroot : (LoadFrom fs.SaveTo).root = fs.root := by
    simp [LoadFrom, FS.SaveTo, decodeC_encodeC]
  exact ⟨hroot, fun p => by rw [hroot], fun p => by rw [hroot], rfl, rfl⟩

/-- C5: A read handle obtained by `Open` while the stored content
decrypted to `A` keeps yielding `A`: the handle is an immutable copy, so
after the same path is overwritten with `B`, reads on the old handle
still return `A` (and only a handle opened afterwards returns `B`);
after `Close`, reads fail `fs.ErrClosed` instead. -/
theorem C5_read_handle_snapshot (fs : FS) (p : Path) (nm : String) (pm : Nat)
    (ct A B : Bytes) (perm : Nat) (nonce : Bytes)
    (hval : ValidPath p = true)
    (hct : getC fs.root p = .ok (.file nm pm ct))
    (hdec : (if encEnabled fs.enc then decryptB fs.enc ct else .ok ct) = .ok A)
    (henc : NonceOK fs.enc nonce)
    (hok : (fs.WriteFile p B perm nonce).1 = .ok ()) :
    fs.Open p = .ok (.rfile ⟨A, 0, false⟩) ∧
    readAll ⟨A, 0, false⟩ = .ok A ∧
    (∃ h' : Handle,
      (fs.WriteFile p B perm nonce).2.Open p = .ok (.rfile h') ∧ readAll h' = .ok B) ∧
    Handle.closeH ⟨A, 0, false⟩ = (.ok (), ⟨A, 0, true⟩) ∧
    readAll ⟨A, 0, true⟩ = .error .closed := by
  obtain ⟨hget, hencEq, _, _⟩ := WriteFile_ok fs p B perm nonce hok
  refine ⟨?_, by simp [readAll], ⟨⟨B, 0, false⟩, ?_, by simp [readAll]⟩, rfl, rfl⟩
  · unfold FS.Open FS.get
    rw [if_neg (by simp [hval]), if_neg (validPath_ne_nil hval), hct]
    simp only [hdec]
  · unfold FS.Open FS.get
    rw [if_neg (by simp [hval]), if_neg (validPath_ne_nil hval), hget, hencEq]
    simp only [open_decrypt_of_written fs.enc nonce B henc]

/-- C5 witness: plaintext instance — file "a" holds `[1]`; after
overwriting with `[2]`, the pre-existing handle still reads `[1]` and a
fresh open reads `[2]`. -/
theorem C5_witness :
    ValidPath ["a"] = true ∧
    getC [("a", Node.file "a" 438 [1])] ["a"] = .ok (.file "a" 438 [1]) ∧
    (let fs : FS := ⟨[("a", Node.file "a" 438 [1])], 0, 0, .disabled⟩
     fs.Open ["a"] = .ok (.rfile ⟨[1], 0, false⟩) ∧
     readAll ⟨[1], 0, false⟩ = .ok [1] ∧
     (∃ h' : Handle,
       (fs.WriteFile ["a"] [2] 438 []).2.Open ["a"] = .ok (.rfile h') ∧
       readAll h' = .ok [2]) ∧
     Handle.closeH ⟨[1], 0, false⟩ = (.ok (), ⟨[1], 0, true⟩) ∧
     readAll ⟨[1], 0, true⟩ = .error .closed) :=
  ⟨rfl, rfl,
    C5_read_handle_snapshot ⟨[("a", Node.file "a" 438 [1])], 0, 0, .disabled⟩
      ["a"] "a" 438 [1] [1] [2] 438 [] rfl rfl rfl True.intro rfl⟩

/-- `getDir` can only fail with the `fs.ErrNotExist` classification. -/
theorem getDirC_error (p : Path) :
    ∀ (cs : Children) (e : Err), getDirC cs p = .error e → e = .notExist := by
  induction p with
  | nil => intro cs e h; simp [getDirC] at h
  | cons s t ih =>
    intro cs e h
    cases hl : lookupKey cs s with
    | none => simp [getDirC, hl] at h; exact h.symm
    | some n =>
      cases n with
      | file nm pm c => simp [getDirC, hl] at h; exact h.symm
      | dir nm pm cs' =>
        simp only [getDirC, hl] at h
        exact ih cs' e h

/-- `create` never fails with the storage-limit error. -/
theorem create_error_ne_limit (fs : FS) (p : Path) (e : Err)
    (h : fs.create p = .error e) : e ≠ .limitExceeded := by
  by_cases hv : ValidPath p
  · simp only [FS.create, hv] at h
    rw [if_neg (by simp)] at h
    split at h
    · rename_i e' heq
      simp only [Except.error.injEq] at h
      subst h
      have := getDirC_error p.dropLast fs.root e' heq
      simp [this]
    · split at h
      · simp only [Except.error.injEq] at h
        subst h
        simp
      · simp at h
  · simp [FS.create, hv] at h
    simp [← h]

/-- C8: When a non-final path segment resolves to a file where a
directory is expected, path resolution — as used by `Open` (via `get`),
`Remove` (via `getDir`) and the other path-based operations — fails with
the `fs.ErrNotExist` classification (`Err.notExist`, i.e.
`errors.Is(err, fs.ErrNotExist)` holds), not with a NotADirectory
error. -/
theorem C8_midpath_file_notExist (fs : FS) (pre more : Path) (nm : String) (pm : Nat)
    (c : Bytes) (hmore : more ≠ []) (hval : ValidPath (pre ++ more) = true)
    (hfile : getC fs.root pre = .ok (.file nm pm c)) :
    fs.get (pre ++ more) = .error .notExist ∧
    fs.getDir (pre ++ more) = .error .notExist ∧
    fs.Open (pre ++ more) = .error .notExist ∧
    (fs.Remove (pre ++ more)).1 = .error .notExist := by
  have hne : pre ++ more ≠ [] := by simp [hmore]
  have hg := getC_file_extend pre fs.root nm pm c more hmore hfile
  have hgd := getDirC_file_extend pre fs.root nm pm c more hfile
  refine ⟨?_, ?_, ?_, ?_⟩
  · simp [FS.get, hne, hg]
  · simp [FS.getDir, hgd]
  · unfold FS.Open FS.get
    rw [if_neg (by simp [hval]), if_neg hne, hg]
  · have hd : getDirC fs.root (pre ++ more).dropLast = .error .notExist := by
      rw [List.dropLast_append_of_ne_nil pre hmore]
      exact getDirC_file_extend pre fs.root nm pm c more.dropLast hfile
    unfold FS.Remove
    rw [if_neg (by simp [hval]), if_neg hne, hd]

/-- C8 witness: `a` is a file; resolving `a/b` fails `Err.notExist`
through all four operations. -/
theorem C8_witness :
    (["b"] : Path) ≠ [] ∧
    ValidPath (["a"] ++ ["b"]) = true ∧
    getC [("a", Node.file "a" 438 [7])] ["a"] = .ok (.file "a" 438 [7]) ∧
    (let fs : FS := ⟨[("a", Node.file "a" 438 [7])], 0, 0, .disabled⟩
     fs.get (["a"] ++ ["b"]) = .error .notExist ∧
     fs.getDir (["a"] ++ ["b"]) = .error .notExist ∧
     fs.Open (["a"] ++ ["b"]) = .error .notExist ∧
     (fs.Remove (["a"] ++ ["b"])).1 = .error .notExist) :=
  ⟨by simp, rfl, rfl,
    C8_midpath_file_notExist ⟨[("a", Node.file "a" 438 [7])], 0, 0, .disabled⟩
      ["a"] ["b"] "a" 438 [7] (by simp) rfl rfl⟩

/-- C9: The view returned by `Sub` is rooted at the resolved subtree of
the parent (sharing its nodes) but carries none of the parent's
configuration — zero-valued storage limit and counter and a nil
encryptor.  Consequently, whatever encryption or quota the parent has,
`WriteFile` through the Sub view never fails with the storage-limit
error and stores the bytes verbatim (plaintext), leaving the view's
counter at 0. -/
theorem C9_sub_drops_config (fs : FS) (p : Path) (cs : Children)
    (h : getDirC fs.root p = .ok cs) :
    fs.Sub p = .ok (subFS cs) ∧
    (subFS cs).root = cs ∧
    (subFS cs).maxStorage = 0 ∧
    (subFS cs).usedStorage = 0 ∧
    (subFS cs).enc = .nil ∧
    (∀ (q : Path) (data : Bytes) (perm : Nat) (nonce : Bytes),
      ((subFS cs).WriteFile q data perm nonce).1 ≠ .error .limitExceeded) ∧
    (∀ (q : Path) (data : Bytes) (perm : Nat) (nonce : Bytes),
      ((subFS cs).WriteFile q data perm nonce).1 = .ok () →
      contentAt ((subFS cs).WriteFile q data perm nonce).2.root q = some data ∧
      ((subFS cs).WriteFile q data perm nonce).2.usedStorage = 0) := by
  refine ⟨by simp [FS.Sub, h], rfl, rfl, rfl, rfl, ?_, ?_⟩
  · intro q data perm nonce hlim
    by_cases hv : ValidPath q
    · simp only [FS.WriteFile, hv] at hlim
      rw [if_neg (by simp)] at hlim
      rw [if_neg (by simp [subFS])] at hlim
      cases hc : (subFS cs).create q with
      | error e =>
        rw [hc] at hlim
        simp at hlim
        exact create_error_ne_limit _ _ _ hc hlim
      | ok root₁ => rw [hc] at hlim; simp at hlim
    · simp [FS.WriteFile, hv] at hlim
  · intro q data perm nonce hok
    obtain ⟨hget, _, _, hval⟩ := WriteFile_ok (subFS cs) q data perm nonce hok
    constructor
    · simp only [contentAt, hget]
      simp [encBytes, subFS]
    · by_cases hv : ValidPath q
      · simp only [FS.WriteFile, hv]
        rw [if_neg (by simp)]
        rw [if_neg (by simp [subFS])]
        cases hc : (subFS cs).create q with
        | error e => simp [hc, subFS]
        | ok root₁ => simp [hc, subFS]
      · simp [FS.WriteFile, hv] at hok

/-! ### Frame lemmas: configuration is never changed by an operation, and
with no positive limit configured the counter is never touched. -/

theorem WriteFile_frame (fs : FS) (p : Path) (data : Bytes) (perm : Nat) (nonce : Bytes) :
    (fs.WriteFile p data perm nonce).2.maxStorage = fs.maxStorage ∧
    (fs.WriteFile p data perm nonce).2.enc = fs.enc ∧
    (fs.maxStorage ≤ 0 → (fs.WriteFile p data perm nonce).2.usedStorage = fs.usedStorage) := by
  simp only [FS.WriteFile]
  repeat' split
  all_goals refine ⟨rfl, rfl, fun hms => ?_⟩
  all_goals simp_all
  all_goals omega

theorem Create_frame (fs : FS) (p : Path) :
    (fs.Create p).2.maxStorage = fs.maxStorage ∧
    (fs.Create p).2.enc = fs.enc ∧
    (fs.maxStorage ≤ 0 → (fs.Create p).2.usedStorage = fs.usedStorage) := by
  simp only [FS.Create]
  repeat' split
  all_goals refine ⟨rfl, rfl, fun hms => ?_⟩
  all_goals simp_all
  all_goals omega

theorem OpenFile_frame (fs : FS) (p : Path) (fl : OFlag) :
    (fs.OpenFile p fl).2.maxStorage = fs.maxStorage ∧
    (fs.OpenFile p fl).2.enc = fs.enc ∧
    (fs.maxStorage ≤ 0 → (fs.OpenFile p fl).2.usedStorage = fs.usedStorage) := by
  simp only [FS.OpenFile]
  repeat' split
  all_goals refine ⟨rfl, rfl, fun hms => ?_⟩
  all_goals simp_all
  all_goals omega

theorem FWWrite_frame (fw : FileWriter) (fs : FS) (data : Bytes) :
    (fw.Write fs data).2.2.maxStorage = fs.maxStorage ∧
    (fw.Write fs data).2.2.enc = fs.enc ∧
    (fs.maxStorage ≤ 0 → (fw.Write fs data).2.2.usedStorage = fs.usedStorage) := by
  simp only [FileWriter.Write]
  repeat' split
  all_goals refine ⟨rfl, rfl, fun hms => ?_⟩
  all_goals simp_all
  all_goals omega

theorem FWClose_frame (fw : FileWriter) (fs : FS) (nonce : Bytes) :
    (fw.Close fs nonce).2.2.maxStorage = fs.maxStorage ∧
    (fw.Close fs nonce).2.2.enc = fs.enc ∧
    (fs.maxStorage ≤ 0 → (fw.Close fs nonce).2.2.usedStorage = fs.usedStorage) := by
  simp only [FileWriter.Close]
  repeat' split
  all_goals refine ⟨rfl, rfl, fun hms => ?_⟩
  all_goals simp_all
  all_goals omega

theorem Remove_frame (fs : FS) (p : Path) :
    (fs.Remove p).2.maxStorage = fs.maxStorage ∧
    (fs.Remove p).2.enc = fs.enc ∧
    (fs.maxStorage ≤ 0 → (fs.Remove p).2.usedStorage = fs.usedStorage) := by
  simp only [FS.Remove]
  repeat' split
  all_goals refine ⟨rfl, rfl, fun hms => ?_⟩
  all_goals simp_all
  all_goals omega

theorem RemoveAll_frame (fs : FS) (p : Path) :
    (fs.RemoveAll p).2.maxStorage = fs.maxStorage ∧
    (fs.RemoveAll p).2.enc = fs.enc ∧
    (fs.maxStorage ≤ 0 → (fs.RemoveAll p).2.usedStorage = fs.usedStorage) := by
  simp only [FS.RemoveAll]
  repeat' split
  all_goals refine ⟨rfl, rfl, fun hms => ?_⟩
  all_goals simp_all
  all_goals omega

/-- One step: configuration preserved; with no positive limit the counter
is untouched. -/
theorem applyOp_frame (fs : FS) (op : Op) :
    (applyOp fs op).maxStorage = fs.maxStorage ∧
    (applyOp fs op).enc = fs.enc ∧
    (fs.maxStorage ≤ 0 → (applyOp fs op).usedStorage = fs.usedStorage) := by
  cases op with
  | write p data perm nonce => exact WriteFile_frame fs p data perm nonce
  | createOp p => exact Create_frame fs p
  | openFileOp p fl => exact OpenFile_frame fs p fl
  | fwWriteOp fw data => exact FWWrite_frame fw fs data
  | fwCloseOp fw nonce => exact FWClose_frame fw fs nonce
  | removeOp p => exact Remove_frame fs p
  | removeAllOp p => exact RemoveAll_frame fs p

/-- C9 witness: parent with encryption and a tight quota; writing through
the Sub view stores plaintext and ignores the quota. -/
theorem C9_witness :
    getDirC [("d", Node.dir "d" 493 [])] ["d"] = .ok [] ∧
    (let fs : FS := ⟨[("d", Node.dir "d" 493 [])], 1, 1, .enabled toyGcm⟩
     fs.Sub ["d"] = .ok (subFS []) ∧
     (subFS []).root = ([] : Children) ∧
     (subFS []).maxStorage = 0 ∧
     (subFS []).usedStorage = 0 ∧
     (subFS []).enc = .nil ∧
     (∀ (q : Path) (data : Bytes) (perm : Nat) (nonce : Bytes),
       ((subFS []).WriteFile q data perm nonce).1 ≠ .error .limitExceeded) ∧
     (∀ (q : Path) (data : Bytes) (perm : Nat) (nonce : Bytes),
       ((subFS []).WriteFile q data perm nonce).1 = .ok () →
       contentAt ((subFS []).WriteFile q data perm nonce).2.root q = some data ∧
       ((subFS []).WriteFile q data perm nonce).2.usedStorage = 0)) :=
  ⟨rfl,
    C9_sub_drops_config ⟨[("d", Node.dir "d" 493 [])], 1, 1, .enabled toyGcm⟩
      ["d"] [] rfl⟩

/-- Over a whole run with no positive limit the counter never moves. -/
theorem runOps_used_of_unlimited (ops : List Op) :
    ∀ fs : FS, fs.maxStorage ≤ 0 → (runOps fs ops).usedStorage = fs.usedStorage := by
  induction ops with
  | nil => intro fs _; rfl
  | cons op rest ih =>
    intro fs h
    have hf := applyOp_frame fs op
    simp only [runOps]
    rw [ih (applyOp fs op) (by rw [hf.1]; exact h), hf.2.2 h]

/-- C10: When no positive maximum storage is configured (`maxStorage ≤ 0`,
the unlimited sentinel), no operation ever modifies the used-storage
counter, so `UsedStorage()` returns 0 after every sequence of writes,
truncations and deletions, regardless of how many bytes are stored. -/
theorem C10_unlimited_counter_zero (ms : Int) (g : Option Gcm) (hms : ms ≤ 0)
    (ops : List Op) :
    (runOps (FS.new ms g) ops).UsedStorage = 0 := by
  have h := runOps_used_of_unlimited ops (FS.new ms g) (by simpa [FS.new] using hms)
  simpa [FS.UsedStorage, FS.new] using h

/-- C10 witness: default configuration (no `WithMaxStorage`), a write, a
streaming write/close and a delete; the counter stays 0. -/
theorem C10_witness :
    (0 : Int) ≤ 0 ∧
    (runOps (FS.new 0 none)
      [Op.write ["a"] [1, 2, 3] 438 [],
       Op.createOp ["b"],
       Op.fwWriteOp ⟨["b"], false⟩ [4, 5],
       Op.fwCloseOp ⟨["b"], false⟩ [],
       Op.removeOp ["a"]]).UsedStorage = 0 :=
  ⟨by decide,
    C10_unlimited_counter_zero 0 none (by decide)
      [Op.write ["a"] [1, 2, 3] 438 [],
       Op.createOp ["b"],
       Op.fwWriteOp ⟨["b"], false⟩ [4, 5],
       Op.fwCloseOp ⟨["b"], false⟩ [],
       Op.removeOp ["a"]]⟩

/-! ### Quota lemmas for C2 -/

theorem WriteFile_used_le (fs : FS) (p : Path) (data : Bytes) (perm : Nat) (nonce : Bytes)
    (hmax : 0 < fs.maxStorage)
    (hok : (fs.WriteFile p data perm nonce).1 = .ok ()) :
    (fs.WriteFile p data perm nonce).2.usedStorage ≤ fs.maxStorage := by
  revert hok
  simp only [FS.WriteFile]
  repeat' split
  all_goals intro hok
  all_goals first
    | (exfalso; simp at hok; done)
    | (simp_all; omega)

theorem WriteFile_reject_eq (fs : FS) (p : Path) (data : Bytes) (perm : Nat) (nonce : Bytes)
    (hr : (fs.WriteFile p data perm nonce).1 = .error .limitExceeded) :
    (fs.WriteFile p data perm nonce).2 = fs := by
  revert hr
  simp only [FS.WriteFile]
  repeat' split
  all_goals intro hr
  all_goals first
    | rfl
    | simp at hr

theorem Create_used_le (fs : FS) (p : Path) (hinv : fs.usedStorage ≤ fs.maxStorage) :
    (fs.Create p).2.usedStorage ≤ fs.maxStorage := by
  simp only [FS.Create]
  repeat' split
  all_goals simp_all
  all_goals omega

theorem OpenFile_used_le (fs : FS) (p : Path) (fl : OFlag)
    (hinv : fs.usedStorage ≤ fs.maxStorage) :
    (fs.OpenFile p fl).2.usedStorage ≤ fs.maxStorage := by
  simp only [FS.OpenFile]
  repeat' split
  all_goals simp_all
  all_goals omega

theorem FWWrite_used_le (fw : FileWriter) (fs : FS) (data : Bytes)
    (hinv : fs.usedStorage ≤ fs.maxStorage) :
    (fw.Write fs data).2.2.usedStorage ≤ fs.maxStorage := by
  simp only [FileWriter.Write]
  repeat' split
  all_goals simp_all

theorem FWWrite_reject_eq (fw : FileWriter) (fs : FS) (data : Bytes)
    (hr : (fw.Write fs data).1 = .error .limitExceeded) :
    (fw.Write fs data).2.2 = fs := by
  revert hr
  simp only [FileWriter.Write]
  repeat' split
  all_goals intro hr
  all_goals first
    | rfl
    | simp at hr

theorem FWClose_used_le_of_not_enabled (fw : FileWriter) (fs : FS) (nonce : Bytes)
    (henc : encEnabled fs.enc = false)
    (hinv : fs.usedStorage ≤ fs.maxStorage) :
    (fw.Close fs nonce).2.2.usedStorage ≤ fs.maxStorage := by
  simp only [FileWriter.Close]
  repeat' split
  all_goals simp_all [encEnabled]

theorem Remove_used_le (fs : FS) (p : Path) (hinv : fs.usedStorage ≤ fs.maxStorage) :
    (fs.Remove p).2.usedStorage ≤ fs.maxStorage := by
  simp only [FS.Remove]
  repeat' split
  all_goals simp_all
  all_goals omega

theorem RemoveAll_used_le (fs : FS) (p : Path) (hmax : 0 < fs.maxStorage)
    (hinv : fs.usedStorage ≤ fs.maxStorage) :
    (fs.RemoveAll p).2.usedStorage ≤ fs.maxStorage := by
  simp only [FS.RemoveAll]
  repeat' split
  all_goals simp_all
  all_goals omega

/-- C2 counterexample (to the claim as stated): a successful
`FileWriter.Close` with encryption enabled pushes the tracked total above
the configured maximum.  Concretely: limit 1 byte, one stored plaintext
byte (counter 1); `Close` encrypts (2-byte nonce + 1-byte tag overhead),
succeeds, and leaves the counter at 4 > 1. -/
theorem C2_cex :
    (let fs : FS := ⟨[("f", Node.file "f" 438 [7])], 1, 1, .enabled toyGcm⟩
     let r := FileWriter.Close ⟨["f"], false⟩ fs [5, 6]
     r.1 = .ok () ∧ r.2.2.usedStorage = 4 ∧ fs.maxStorage = 1 ∧
       fs.maxStorage < r.2.2.usedStorage) :=
  ⟨rfl, rfl, rfl, by decide⟩

/-- C2 (amended): on a filesystem with a positive configured maximum whose
tracked total does not exceed it, every successful operation — `WriteFile`,
`Create`, `OpenFile`, `FileWriter.Write`, `Remove`, `RemoveAll`, and
`FileWriter.Close` when encryption is not enabled — leaves the tracked
total at or below the maximum (close-time re-encryption growth is applied
without a limit check and is the one exception, see the counterexample);
and an operation rejected for exceeding the limit leaves the state, hence
the tracked total, exactly as it was. -/
theorem C2_quota_invariant (fs : FS) (hmax : 0 < fs.maxStorage)
    (hinv : fs.usedStorage ≤ fs.maxStorage) :
    (∀ (p : Path) (data : Bytes) (perm : Nat) (nonce : Bytes),
      ((fs.WriteFile p data perm nonce).1 = .ok () →
        (fs.WriteFile p data perm nonce).2.usedStorage ≤ fs.maxStorage) ∧
      ((fs.WriteFile p data perm nonce).1 = .error .limitExceeded →
        (fs.WriteFile p data perm nonce).2 = fs)) ∧
    (∀ p : Path, (fs.Create p).2.usedStorage ≤ fs.maxStorage) ∧
    (∀ (p : Path) (fl : OFlag), (fs.OpenFile p fl).2.usedStorage ≤ fs.maxStorage) ∧
    (∀ (fw : FileWriter) (data : Bytes),
      ((fw.Write fs data).2.2.usedStorage ≤ fs.maxStorage) ∧
      ((fw.Write fs data).1 = .error .limitExceeded → (fw.Write fs data).2.2 = fs)) ∧
    (∀ (fw : FileWriter) (nonce : Bytes), encEnabled fs.enc = false →
      (fw.Close fs nonce).2.2.usedStorage ≤ fs.maxStorage) ∧
    (∀ p : Path, (fs.Remove p).2.usedStorage ≤ fs.maxStorage) ∧
    (∀ p : Path, (fs.RemoveAll p).2.usedStorage ≤ fs.maxStorage) :=
  ⟨fun p data perm nonce =>
      ⟨WriteFile_used_le fs p data perm nonce hmax, WriteFile_reject_eq fs p data perm nonce⟩,
    fun p => Create_used_le fs p hinv,
    fun p fl => OpenFile_used_le fs p fl hinv,
    fun fw data => ⟨FWWrite_used_le fw fs data hinv, FWWrite_reject_eq fw fs data⟩,
    fun fw nonce henc => FWClose_used_le_of_not_enabled fw fs nonce henc hinv,
    fun p => Remove_used_le fs p hinv,
    fun p => RemoveAll_used_le fs p hmax hinv⟩

/-- C2 witness: concrete instance — with limit 10 and counter 0, a
successful 3-byte write keeps the counter below the limit, and a 20-byte
write is rejected leaving the state unchanged. -/
theorem C2_witness :
    (0 : Int) < 10 ∧ (0 : Int) ≤ 10 ∧
    (let fs : FS := ⟨[], 10, 0, .disabled⟩
     (fs.WriteFile ["a"] [1, 2, 3] 438 []).2.usedStorage ≤ fs.maxStorage ∧
     (fs.WriteFile ["b"] (List.replicate 20 1) 438 []).2 = fs) :=
  ⟨by decide, by decide,
    ((C2_quota_invariant ⟨[], 10, 0, .disabled⟩ (by decide) (by decide)).1
        ["a"] [1, 2, 3] 438 []).1 rfl,
    ((C2_quota_invariant ⟨[], 10, 0, .disabled⟩ (by decide) (by decide)).1
        ["b"] (List.replicate 20 1) 438 []).2 rfl⟩

/-- C3 (evaluation of the code at the failing input): with storage
tracking on (limit 100), writing 5 bytes to "a" and then overwriting the
same file with 2 bytes leaves the counter at 7 = 5 + 2 while the tree
stores 2 bytes.  `create` replaces the node with a fresh empty file and
`WriteFile` subtracts `len(f.Content)` of that fresh node — always 0 —
so the replaced file's old size is never subtracted, contradicting the
code's own comment "Subtract old file size and add new file size" and
the claimed exact-delta accounting. -/
theorem C3_eval :
    (let fs0 : FS := FS.new 100 none
     let fs1 := (fs0.WriteFile ["a"] [1, 2, 3, 4, 5] 438 []).2
     let fs2 := (fs1.WriteFile ["a"] [9, 9] 438 []).2
     (fs0.WriteFile ["a"] [1, 2, 3, 4, 5] 438 []).1 = .ok () ∧
     (fs1.WriteFile ["a"] [9, 9] 438 []).1 = .ok () ∧
     fs2.UsedStorage = 7 ∧
     subtreeSize fs2.root = 2 ∧
     contentAt fs2.root ["a"] = some [9, 9] ∧
     fs2.UsedStorage ≠ (subtreeSize fs2.root : Int)) := by
  refine ⟨rfl, rfl, rfl, ?_, rfl, ?_⟩
  · show subtreeSize [("a", Node.file "a" 438 [9, 9])] = 2
    simp [subtreeSize]
  · show (7 : Int) ≠ (subtreeSize [("a", Node.file "a" 438 [9, 9])] : Int)
    have h2 : subtreeSize [("a", Node.file "a" 438 [9, 9])] = 2 := by simp [subtreeSize]
    rw [h2]
    decide

/-- C6 (evaluation of the code at the failing input): a directory handle
over entries `a b c`.  `ReadDir(2)` returns the first two entries and
advances the cursor to 2; a second `ReadDir(2)` returns the empty slice
with `io.EOF` and leaves the cursor at 2, so the third entry is never
returned by positive-count calls — the loop bound is `i < n` where the
EOF computation (`d.idx+n > len(names)`) shows the intent was
`i < d.idx+n`.  A non-positive count still returns all remaining
entries (`c`). -/
theorem C6_eval :
    (let d0 : FhDir := ⟨["a", "b", "c"], 0⟩
     (d0.ReadDir 2).1 = ["a", "b"] ∧
     (d0.ReadDir 2).2.2.idx = 2 ∧
     (d0.ReadDir 2).2.2.names.drop 2 = ["c"] ∧
     ((d0.ReadDir 2).2.2.ReadDir 2).1 = [] ∧
     ((d0.ReadDir 2).2.2.ReadDir 2).2.1 = true ∧
     ((d0.ReadDir 2).2.2.ReadDir 2).2.2.idx = 2 ∧
     ((d0.ReadDir 2).2.2.ReadDir (-1)).1 = ["c"]) :=
  ⟨rfl, rfl, rfl, rfl, rfl, rfl, rfl⟩

/-- C7 counterexample (to the claim as stated): `create` on a path whose
final segment names an existing File does NOT preserve node identity.
On a directory holding file node 0 (content `[1]`), the code allocates a
fresh node (id 1 = `nextId`) and stores it under the name; the claim's
reading (`createESpec`, identity preserved) predicts the entry
`fileE 0 []`, but the entry is `fileE 1 []`. -/
theorem C7_cex :
    (let d0 : IdDir := ⟨[("f", .fileE 0 [1])], 1⟩
     let d1 : IdDir := ⟨[("f", .fileE 1 [])], 2⟩
     d0.createE "f" = .ok (1, d1) ∧
     d0.createESpec "f" = .ok (0, ⟨[("f", .fileE 0 [])], 1⟩) ∧
     lookupKey d1.children "f" = some (.fileE 1 []) ∧
     ¬ lookupKey d1.children "f" = some (.fileE 0 [])) :=
  ⟨rfl, rfl, rfl, by decide⟩

/-- What a successful `create` leaves at the path: a fresh empty file with
permission 0666 (and the path was valid). -/
theorem create_ok_content (fs : FS) (p : Path) (root₁ : Children)
    (hc : fs.create p = .ok root₁) :
    getC root₁ p = .ok (.file (lastSeg p) 0o666 []) ∧ ValidPath p = true := by
  by_cases hval : ValidPath p
  · have hpne : p ≠ [] := validPath_ne_nil hval
    simp only [FS.create, hval] at hc
    rw [if_neg (by simp)] at hc
    cases hgd : getDirC fs.root p.dropLast with
    | error e => rw [hgd] at hc; simp at hc
    | ok parent =>
      rw [hgd] at hc
      simp only [not_true, if_false, Bool.not_eq_true] at hc
      have hroot₁ :
          root₁ = updateDirAt fs.root p.dropLast
            (fun cs => setKey cs (lastSeg p) (.file (lastSeg p) 0o666 [])) := by
        cases hlk : lookupKey parent (lastSeg p) with
        | none => rw [hlk] at hc; simp at hc; exact hc.symm
        | some n =>
          cases n with
          | file nm pm c => rw [hlk] at hc; simp at hc; exact hc.symm
          | dir nm pm cs => rw [hlk] at hc; simp at hc
      have hgd₁ : getDirC root₁ p.dropLast
          = .ok (setKey parent (lastSeg p) (.file (lastSeg p) 0o666 [])) := by
        rw [hroot₁]
        exact getDirC_updateDirAt _ _ _ _ hgd
      have h3 := getC_append p.dropLast root₁ _ [lastSeg p] (by simp) hgd₁
      rw [dropLast_append_lastSeg p hpne] at h3
      rw [h3]
      simp [getC, lookupKey_setKey_self, hval]
  · simp [FS.create, hval] at hc

/-- A successful lookup comes from a member entry keyed by the query. -/
theorem lookupKey_mem {α : Type} (l : List (String × α)) (s : String) (v : α)
    (h : lookupKey l s = some v) : (s, v) ∈ l := by
  induction l with
  | nil => simp [lookupKey] at h
  | cons kv rest ih =>
    obtain ⟨k, v'⟩ := kv
    by_cases hk : k = s
    · subst hk
      simp only [lookupKey, if_pos rfl] at h
      cases h
      exact List.mem_cons_self _ _
    · simp only [lookupKey, if_neg hk] at h
      exact List.mem_cons_of_mem _ (ih h)

/-- Splitting a successful resolution into parent resolution plus a final
lookup. -/
theorem getC_split (p : Path) :
    ∀ (cs : Children) (n : Node), p ≠ [] → getC cs p = .ok n →
      ∃ par, getDirC cs p.dropLast = .ok par ∧ lookupKey par (lastSeg p) = some n := by
  induction p with
  | nil => intro cs n h; exact absurd rfl h
  | cons s t ih =>
    intro cs n _ h
    cases t with
    | nil =>
      cases hl : lookupKey cs s with
      | none => simp [getC, hl] at h
      | some m =>
        simp only [getC, hl] at h
        cases h
        exact ⟨cs, by simp [getDirC], by simpa [lastSeg] using hl⟩
    | cons r t' =>
      cases hl : lookupKey cs s with
      | none => simp [getC, hl] at h
      | some m =>
        cases m with
        | file nm pm c => simp [getC, hl] at h
        | dir nm pm cs' =>
          simp only [getC, hl] at h
          obtain ⟨par, h1, h2⟩ := ih cs' n (by simp) h
          refine ⟨par, ?_, h2⟩
          have hdl : (s :: r :: t').dropLast = s :: (r :: t').dropLast := rfl
          rw [hdl]
          simp [getDirC, hl, h1]

/-- `create` on a path resolving to an existing directory fails
`fs.ErrExist`. -/
theorem create_on_dir_exist (fs : FS) (p : Path) (nm : String) (pm : Nat) (cs : Children)
    (hval : ValidPath p = true)
    (hdir : getC fs.root p = .ok (.dir nm pm cs)) :
    fs.create p = .error .exist := by
  obtain ⟨par, hgd, hlk⟩ := getC_split p fs.root _ (validPath_ne_nil hval) hdir
  simp only [FS.create, hval]
  rw [if_neg (by simp), hgd]
  simp [hlk]

/-- C7 (amended): when `create`'s final segment names an existing
Directory it fails with the Exist classification; when it names an
existing File, the entry is replaced by a freshly allocated empty File
node — the content at the path is reset to empty, but node identity is
NOT preserved: the node now at the name carries the fresh id `nextId`,
different from the replaced node's id (so a writer obtained before the
call keeps mutating the detached old node, while writers obtained from
the call mutate the node now in the tree). -/
theorem C7_create_replaces_with_fresh_node (d : IdDir) (name : String) :
    (∀ id, lookupKey d.children name = some (.dirE id) → d.createE name = .error .exist) ∧
    (∀ id c, lookupKey d.children name = some (.fileE id c) → WfIdDir d →
      d.createE name
        = .ok (d.nextId, ⟨setKey d.children name (.fileE d.nextId []), d.nextId + 1⟩) ∧
      lookupKey (setKey d.children name (.fileE d.nextId [])) name
        = some (.fileE d.nextId []) ∧
      d.nextId ≠ id) ∧
    (∀ (fs : FS) (p : Path) (root₁ : Children),
      fs.create p = .ok root₁ → contentAt root₁ p = some []) ∧
    (∀ (fs : FS) (p : Path) (nm : String) (pm : Nat) (cs : Children),
      ValidPath p = true → getC fs.root p = .ok (.dir nm pm cs) →
      fs.create p = .error .exist) := by
  refine ⟨?_, ?_, ?_, fun fs p nm pm cs hv hd => create_on_dir_exist fs p nm pm cs hv hd⟩
  case refine_3 =>
    intro fs p root₁ hc
    obtain ⟨hg, _⟩ := create_ok_content fs p root₁ hc
    simp [contentAt, hg]
  · intro id hlk
    simp [IdDir.createE, hlk]
  · intro id c hlk hwf
    refine ⟨by simp [IdDir.createE, hlk], lookupKey_setKey_self _ _ _, ?_⟩
    have hm := lookupKey_mem d.children name _ hlk
    have hlt := hwf (name, .fileE id c) hm
    simp only [Entry.nodeId] at hlt
    omega

/-- C7 witness: the amended behavior at a concrete directory — existing
file node 0 is replaced by fresh node 1 with empty content. -/
theorem C7_witness :
    lookupKey (IdDir.mk [("f", .fileE 0 [1])] 1).children "f" = some (.fileE 0 [1]) ∧
    WfIdDir ⟨[("f", .fileE 0 [1])], 1⟩ ∧
    (IdDir.createE ⟨[("f", .fileE 0 [1])], 1⟩ "f"
        = .ok (1, ⟨setKey ([("f", Entry.fileE 0 [1])] : List (String × Entry)) "f"
                    (Entry.fileE 1 []), 2⟩) ∧
      lookupKey (setKey ([("f", Entry.fileE 0 [1])] : List (String × Entry)) "f"
          (Entry.fileE 1 [])) "f"
        = some (.fileE 1 []) ∧
      (1 : Nat) ≠ 0) :=
  ⟨rfl, by simp [WfIdDir, Entry.nodeId],
    (C7_create_replaces_with_fresh_node ⟨[("f", .fileE 0 [1])], 1⟩ "f").2.1
      0 [1] rfl (by simp [WfIdDir, Entry.nodeId])⟩

end Memfs
